import Mathlib

/-!
Shallow embedding of the conditioned control-flow-graph core of the
`llvm-rust` repository (packages `inkwell` and `llutil`; the two packages
hold near-duplicate copies of the CFG code, and the definitions below are
shared between them).

The embedding models:
* the predicate-negation table (`llutil/src/ir/instructions/predicate.rs`);
* path conditions and edge descriptors (`llutil/src/ir/path_condition.rs`,
  `inkwell/src/cfg/successor_block.rs`, `inkwell/src/cfg/predecessor_block.rs`);
* terminator instructions and their raw and conditioned successors
  (`inkwell/src/values/instructions/{traits,branch_inst,indirectbr_inst,terminator_inst}.rs`,
  `llutil/src/ir/instructions/switch_inst.rs`);
* block-level successor and predecessor queries
  (`inkwell/src/values/basic_block.rs`).

Blocks and values are identified by natural-number identifiers, standing for
the pointer identity of `BasicBlock`/`BasicValueEnum` handles (whose derived
`PartialEq` compares the underlying pointers).
-/

/-- Identity of an LLVM value handle (`BasicValueEnum`); equality of
identifiers models pointer equality of the handles. -/
abbrev ValueId := Nat

/-- Identity of an LLVM basic-block handle (`BasicBlock`). -/
abbrev BlockId := Nat

/-- Integer comparison predicates, from `inkwell::IntPredicate`. -/
inductive IntPredicate where
  | EQ | NE | UGT | UGE | ULT | ULE | SGT | SGE | SLT | SLE
deriving DecidableEq, Repr

/-- Floating-point comparison predicates, from `inkwell::FloatPredicate`. -/
inductive FloatPredicate where
  | OEQ | OGE | OGT | OLE | OLT | ONE | ORD
  | PredicateFalse | PredicateTrue
  | UEQ | UGE | UGT | ULE | ULT | UNE | UNO
deriving DecidableEq, Repr

/-- Binary predicates over two expressions, from
`llutil/src/ir/instructions/predicate.rs` (`BinaryPredicate`). -/
inductive BinaryPredicate where
  | IntPred (pred : IntPredicate)
  | FloatPred (pred : FloatPredicate)
deriving DecidableEq, Repr

/-- The integer branch of the lookup table inside `BinaryPredicate::negate`
(`predicate.rs`, lines 23-34). -/
def negateIntPred : IntPredicate → IntPredicate
  | .EQ => .NE
  | .NE => .EQ
  | .UGT => .ULE
  | .UGE => .ULT
  | .ULT => .UGE
  | .ULE => .UGT
  | .SGT => .SLE
  | .SGE => .SLT
  | .SLT => .SGE
  | .SLE => .SGT

/-- The floating-point branch of the lookup table inside
`BinaryPredicate::negate` (`predicate.rs`, lines 38-59). -/
def negateFloatPred : FloatPredicate → FloatPredicate
  | .OEQ => .UNE
  | .OGE => .ULT
  | .OGT => .ULE
  | .OLE => .UGT
  | .OLT => .UGE
  | .ONE => .UEQ
  | .ORD => .UNO
  | .PredicateFalse => .PredicateTrue
  | .PredicateTrue => .PredicateFalse
  | .UEQ => .ONE
  | .UGE => .OLT
  | .UGT => .OLE
  | .ULE => .OGT
  | .ULT => .OGE
  | .UNE => .OEQ
  | .UNO => .ORD

/-- Negation of a binary predicate, from `BinaryPredicate::negate`
(`predicate.rs`, lines 20-63). -/
def BinaryPredicate.negate : BinaryPredicate → BinaryPredicate
  | .IntPred pred => .IntPred (negateIntPred pred)
  | .FloatPred pred => .FloatPred (negateFloatPred pred)

/-- Modelled from the spec: the comparison shape of a relational predicate
("equal", "not equal", "greater", ...), used only to state that negation
pairs each relation with the logically opposite comparison.  Mirrors the
grouping used by the `Display` implementation in `predicate.rs`. -/
inductive CmpShape where
  | ceq | cne | cgt | cge | clt | cle
deriving DecidableEq, Repr

/-- Modelled from the spec: the logically opposite comparison shape. -/
def cmpOpposite : CmpShape → CmpShape
  | .ceq => .cne
  | .cne => .ceq
  | .cgt => .cle
  | .cle => .cgt
  | .cge => .clt
  | .clt => .cge

/-- Modelled from the spec: comparison shape of an integer predicate,
following the grouping of the `Display` implementation in `predicate.rs`. -/
def intShape : IntPredicate → CmpShape
  | .EQ => .ceq
  | .NE => .cne
  | .UGT => .cgt
  | .SGT => .cgt
  | .UGE => .cge
  | .SGE => .cge
  | .ULT => .clt
  | .SLT => .clt
  | .ULE => .cle
  | .SLE => .cle

/-- Whether an integer predicate is one of the signed variants. -/
def IntPredicate.isSigned : IntPredicate → Bool
  | .SGT | .SGE | .SLT | .SLE => true
  | _ => false

/-- Whether an integer predicate is one of the unsigned variants. -/
def IntPredicate.isUnsigned : IntPredicate → Bool
  | .UGT | .UGE | .ULT | .ULE => true
  | _ => false

/-- Whether a floating-point predicate is an ordered comparison
(`false` when an operand is NaN); the constant predicates are neither. -/
def FloatPredicate.isOrdered : FloatPredicate → Bool
  | .OEQ | .OGE | .OGT | .OLE | .OLT | .ONE | .ORD => true
  | _ => false

/-- Whether a floating-point predicate is an unordered comparison
(`true` when an operand is NaN); the constant predicates are neither. -/
def FloatPredicate.isUnordered : FloatPredicate → Bool
  | .UEQ | .UGE | .UGT | .ULE | .ULT | .UNE | .UNO => true
  | _ => false

/-- Modelled from the spec: comparison shape of a relational floating-point
predicate; `ORD`, `UNO` and the two constant predicates have none. -/
def floatShape : FloatPredicate → Option CmpShape
  | .OEQ => some .ceq
  | .UEQ => some .ceq
  | .ONE => some .cne
  | .UNE => some .cne
  | .OGT => some .cgt
  | .UGT => some .cgt
  | .OGE => some .cge
  | .UGE => some .cge
  | .OLT => some .clt
  | .ULT => some .clt
  | .OLE => some .cle
  | .ULE => some .cle
  | _ => none

/-- Path condition between two basic blocks, from
`llutil/src/ir/path_condition.rs` (`PathCondition`), duplicated in
`inkwell/src/cfg/path_condition.rs`. -/
inductive PathCondition where
  | None
  | Boolean (cond : ValueId) (val : Bool)
  | Value (cond : ValueId) (caseValue : ValueId)
deriving DecidableEq, Repr

/-- A successor block together with its path condition, from
`inkwell/src/cfg/successor_block.rs` (`SuccessorBlock`). -/
structure SuccessorBlock where
  condition : PathCondition
  block : BlockId
deriving DecidableEq, Repr

/-- Constructor `SuccessorBlock::new`. -/
def SuccessorBlock.new (condition : PathCondition) (successor : BlockId) :
    SuccessorBlock :=
  ⟨condition, successor⟩

/-- A predecessor block together with its path condition, from
`inkwell/src/cfg/predecessor_block.rs` (`PredecessorBlock`). -/
structure PredecessorBlock where
  condition : PathCondition
  block : BlockId
deriving DecidableEq, Repr

/-- Constructor `PredecessorBlock::new`. -/
def PredecessorBlock.new (condition : PathCondition) (predecessor : BlockId) :
    PredecessorBlock :=
  ⟨condition, predecessor⟩

/-- A terminator instruction, holding its operands.  The constructors encode
the operand arity invariants of LLVM IR stated in the spec's data model: an
unconditional `br` has exactly one target, a conditional `br` has a condition
and exactly two targets (true target first), a `switch` has a condition, a
default target and a list of `(case value, case target)` pairs in declaration
order, an `indirectbr` has an address and a list of destinations, an `invoke`
has a normal and an unwind successor, a `callbr` has a default target and
indirect targets, and `ret`/`unreachable` have no successors. -/
inductive TermInst where
  | brUncond (target : BlockId)
  | brCond (cond : ValueId) (ifTrue : BlockId) (ifFalse : BlockId)
  | switch (cond : ValueId) (dflt : BlockId) (cases : List (ValueId × BlockId))
  | indirectBr (addr : ValueId) (dests : List BlockId)
  | ret
  | unreachable
  | invoke (normal : BlockId) (unwind : BlockId)
  | callbr (dflt : BlockId) (indirectDests : List BlockId)
deriving DecidableEq, Repr

/-- Raw successor-block operands of a terminator in LLVM operand order:
the semantics of `LLVMGetNumSuccessors`/`LLVMGetSuccessor` (successor 0 of a
`switch` is its default destination, successors 1..N are the case targets;
successor 0 of a conditional `br` is the true target). -/
def TermInst.rawSuccessors : TermInst → List BlockId
  | .brUncond target => [target]
  | .brCond _ ifTrue ifFalse => [ifTrue, ifFalse]
  | .switch _ dflt cases => dflt :: cases.map Prod.snd
  | .indirectBr _ dests => dests
  | .ret => []
  | .unreachable => []
  | .invoke normal unwind => [normal, unwind]
  | .callbr dflt indirectDests => dflt :: indirectDests

/-- `AnyTerminator::get_num_successors` (`inkwell .../traits.rs`, line 233),
wrapping `LLVMGetNumSuccessors`. -/
def TermInst.get_num_successors (t : TermInst) : Nat :=
  t.rawSuccessors.length

/-- `AnyTerminator::get_successor` (`traits.rs`, line 238), wrapping
`LLVMGetSuccessor`; `none` models a null result. -/
def TermInst.get_successor (t : TermInst) (index : Nat) : Option BlockId :=
  t.rawSuccessors.get? index

/-- `AnyTerminator::get_successors` (`traits.rs`, lines 246-259): loop over
`0..get_num_successors`, pushing each successor that is present. -/
def TermInst.get_successors (t : TermInst) : List BlockId :=
  (List.range t.get_num_successors).filterMap t.get_successor

/-- `InstructionValue::is_a_branch_inst` (opcode test `LLVMIsABranchInst`). -/
def TermInst.is_a_branch_inst : TermInst → Bool
  | .brUncond _ => true
  | .brCond _ _ _ => true
  | _ => false

/-- `InstructionValue::is_a_switch_inst` (opcode test `LLVMIsASwitchInst`). -/
def TermInst.is_a_switch_inst : TermInst → Bool
  | .switch _ _ _ => true
  | _ => false

/-- `InstructionValue::is_a_indirectbr_inst` (opcode test
`LLVMIsAIndirectBrInst`). -/
def TermInst.is_a_indirectbr_inst : TermInst → Bool
  | .indirectBr _ _ => true
  | _ => false

/-- `AnyCondition::has_condition` (`traits.rs`, line 268), wrapping
`LLVMIsConditional`, which is meaningful for `br` instructions: true exactly
for a conditional branch. -/
def TermInst.has_condition : TermInst → Bool
  | .brCond _ _ _ => true
  | _ => false

/-- The raw `LLVMGetCondition` call: the condition operand of a conditional
branch; `none` models the undefined result on any other instruction. -/
def LLVMGetCondition : TermInst → Option ValueId
  | .brCond cond _ _ => some cond
  | _ => none

/-- `AnyCondition::get_condition` (`traits.rs`, lines 275-284): returns the
condition when `has_condition` holds and otherwise panics (the panic is
modelled by `none`). -/
def TermInst.get_condition (t : TermInst) : Option ValueId :=
  if t.has_condition then LLVMGetCondition t else none

/-- View of a `br` instruction (`BranchInst` in both packages): its optional
condition operand and its successor-block operands. -/
structure BranchInst where
  condition : Option ValueId
  targets : List BlockId
deriving DecidableEq, Repr

/-- `InstructionValue::try_into_branch_inst` / `TryFrom` for `BranchInst`:
succeeds exactly on `br` instructions. -/
def TermInst.as_branch_inst : TermInst → Option BranchInst
  | .brUncond target => some ⟨none, [target]⟩
  | .brCond cond ifTrue ifFalse => some ⟨some cond, [ifTrue, ifFalse]⟩
  | _ => none

/-- `AnyCondition::has_condition` viewed on a `BranchInst`. -/
def BranchInst.has_condition (b : BranchInst) : Bool :=
  b.condition.isSome

/-- `AnyCondition::get_condition` viewed on a `BranchInst`. -/
def BranchInst.get_condition (b : BranchInst) : Option ValueId :=
  if b.has_condition then b.condition else none

/-- `AnyTerminator::get_successor` viewed on a `BranchInst`. -/
def BranchInst.get_successor (b : BranchInst) (index : Nat) : Option BlockId :=
  b.targets.get? index

/-- `BranchInst::get_first_successor` (`branch_inst.rs`, line 25); the
source unwraps, the `Option` models the possible panic. -/
def BranchInst.get_first_successor (b : BranchInst) : Option BlockId :=
  b.get_successor 0

/-- `BranchInst::get_second_successor` (`branch_inst.rs`, line 30). -/
def BranchInst.get_second_successor (b : BranchInst) : Option BlockId :=
  b.get_successor 1

/-- `BranchInst::get_conditioned_successors` (`branch_inst.rs`, lines 35-58):
a conditional branch yields the true edge then the false edge; an
unconditional branch yields a single unconditioned edge.  The `[]` fallback
arms model the source's panicking `unwrap`s on a malformed branch. -/
def BranchInst.get_conditioned_successors (b : BranchInst) :
    List SuccessorBlock :=
  if b.has_condition then
    match b.get_condition, b.get_first_successor, b.get_second_successor with
    | some condition, some s0, some s1 =>
        [SuccessorBlock.new (PathCondition.Boolean condition true) s0,
         SuccessorBlock.new (PathCondition.Boolean condition false) s1]
    | _, _, _ => []
  else
    match b.get_successor 0 with
    | some blk => [SuccessorBlock.new PathCondition.None blk]
    | none => []

/-- View of a `switch` instruction (`SwitchInst`, present in
`llutil/src/ir/instructions/switch_inst.rs`; the `inkwell` copy is a
near-duplicate): condition operand, default destination, and the
`(case value, case target)` pairs in declaration order. -/
structure SwitchInst where
  cond : ValueId
  dflt : BlockId
  cases : List (ValueId × BlockId)
deriving DecidableEq, Repr

/-- `InstructionValue::try_into_switch_inst` / `TryFrom` for `SwitchInst`:
succeeds exactly on `switch` instructions. -/
def TermInst.as_switch_inst : TermInst → Option SwitchInst
  | .switch cond dflt cases => some ⟨cond, dflt, cases⟩
  | _ => none

/-- `SwitchInst::get_condition` (`switch_inst.rs`, line 35), wrapping
`LLVMGetSwitchCondition`. -/
def SwitchInst.get_condition (s : SwitchInst) : ValueId :=
  s.cond

/-- `SwitchInst::get_num_cases` (`switch_inst.rs`, line 116), wrapping
`LLVMGetSwitchNumCases`: the number of cases excluding the default. -/
def SwitchInst.get_num_cases (s : SwitchInst) : Nat :=
  s.cases.length

/-- Modelled from the spec: the raw `LLVMGetSwitchCase` call of the
repository's `llvm-sys` fork, whose source is not under `src/`.  Per the
commented-out operand arithmetic in `switch_inst.rs` (operand `index*2+2`)
it returns the value of case `index`; out of range the C call's result is
unspecified and is modelled by an arbitrary fixed value. -/
def LLVMGetSwitchCase (s : SwitchInst) (index : Nat) : ValueId :=
  ((s.cases.get? index).map Prod.fst).getD 0

/-- `SwitchInst::get_case` (`switch_inst.rs`, lines 43-52): rejects an index
strictly greater than `get_num_cases` and otherwise wraps the raw case
value in `Some`. -/
def SwitchInst.get_case (s : SwitchInst) (index : Nat) : Option ValueId :=
  if index > s.get_num_cases then
    none
  else
    some (LLVMGetSwitchCase s index)

/-- `SwitchInst::get_successor` (`switch_inst.rs`, lines 75-100), wrapping
`LLVMGetSwitchSuccessor`.  Modelled from the spec: the raw call's source is
not under `src/`; per the doc comment ("Get the successor of a switch-case")
and the commented-out operand arithmetic (operand `index*2+3`) it returns
the target of case `index`, and `none` models a null result out of range. -/
def SwitchInst.get_successor (s : SwitchInst) (index : Nat) : Option BlockId :=
  (s.cases.get? index).map Prod.snd

/-- `SwitchInst::get_default_successor` (`switch_inst.rs`, lines 103-113),
wrapping `LLVMGetSwitchDefaultDest`. -/
def SwitchInst.get_default_successor (s : SwitchInst) : BlockId :=
  s.dflt

/-- `SwitchInst::get_conditioned_successors` (`switch_inst.rs`, lines
121-152): first the unconditioned default edge, then for each case index in
`0..get_num_cases` an edge guarded by equality of the switch condition with
the case value, pushed only when both the case value and the case target are
present. -/
def SwitchInst.get_conditioned_successors (s : SwitchInst) :
    List SuccessorBlock :=
  SuccessorBlock.new PathCondition.None s.get_default_successor ::
    (List.range s.get_num_cases).filterMap (fun i =>
      match s.get_case i, s.get_successor i with
      | some case, some successor =>
          some (SuccessorBlock.new
            (PathCondition.Value s.get_condition case) successor)
      | _, _ => none)

/-- View of an `indirectbr` instruction (`IndirectBrInst`): its address
operand and destination blocks in declaration order. -/
structure IndirectBrInst where
  address : ValueId
  dests : List BlockId
deriving DecidableEq, Repr

/-- `InstructionValue::try_into_indirectbr_inst` / `TryFrom` for
`IndirectBrInst`: succeeds exactly on `indirectbr` instructions. -/
def TermInst.as_indirectbr_inst : TermInst → Option IndirectBrInst
  | .indirectBr addr dests => some ⟨addr, dests⟩
  | _ => none

/-- `AnyTerminator::get_successors` viewed on an `IndirectBrInst` (its raw
successors are its destinations). -/
def IndirectBrInst.get_successors (b : IndirectBrInst) : List BlockId :=
  (List.range b.dests.length).filterMap b.dests.get?

/-- `IndirectBrInst::get_conditioned_successors` (`indirectbr_inst.rs`,
lines 27-38): one unconditioned edge per raw successor. -/
def IndirectBrInst.get_conditioned_successors (b : IndirectBrInst) :
    List SuccessorBlock :=
  b.get_successors.map (fun blk => SuccessorBlock.new PathCondition.None blk)

/-- `TerminatorInst::get_conditioned_successors`
(`inkwell .../terminator_inst.rs`, lines 77-87, duplicated in
`llutil .../terminator_inst.rs`): try the branch view, then the
indirect-branch view, then the switch view, and fall back to the empty
vector for every other terminator kind. -/
def TermInst.get_conditioned_successors (t : TermInst) :
    List SuccessorBlock :=
  match t.as_branch_inst with
  | some branch_inst => branch_inst.get_conditioned_successors
  | none =>
    match t.as_indirectbr_inst with
    | some indirectbr_inst => indirectbr_inst.get_conditioned_successors
    | none =>
      match t.as_switch_inst with
      | some switch_inst => switch_inst.get_conditioned_successors
      | none => []

/-- The block-reference operands of a terminator: each occurrence is one
`Use` of the referenced block on that block's use-list.  Case values and
condition operands are value operands, not block references. -/
def TermInst.blockOperands : TermInst → List BlockId
  | .brUncond target => [target]
  | .brCond _ ifTrue ifFalse => [ifTrue, ifFalse]
  | .switch _ dflt cases => dflt :: cases.map Prod.snd
  | .indirectBr _ dests => dests
  | .ret => []
  | .unreachable => []
  | .invoke normal unwind => [normal, unwind]
  | .callbr dflt indirectDests => dflt :: indirectDests

/-- A basic block: its identity, its owning function while attached
(`LLVMGetBasicBlockParent`; `none` once removed from the function), its
terminator if it has one (`LLVMGetBasicBlockTerminator`; instructions stay
in the block when the block is detached), and the block-reference operands
of the phi instructions it contains (phi nodes also use blocks as values). -/
structure Blk where
  bid : BlockId
  parent : Option Nat
  term : Option TermInst
  phiBlockRefs : List BlockId
deriving DecidableEq, Repr

/-- One entry of a block's use-list, as inspected by the predecessor
queries: an instruction user is either a terminator or a non-terminator
instruction (e.g. a phi node) living in some block, and a non-instruction
user models a `blockaddress` constant. -/
inductive User where
  | termUser (ownerBid : BlockId) (t : TermInst)
  | phiUser (ownerBid : BlockId)
  | nonInst
deriving DecidableEq, Repr

/-- `AnyValueEnum::is_instruction_value` for a use's user. -/
def User.is_instruction_value : User → Bool
  | .termUser _ _ => true
  | .phiUser _ => true
  | .nonInst => false

/-- The uses of `target` contributed by one block: one use per occurrence of
`target` among the block's terminator operands, and one per occurrence among
its phi-node block operands. -/
def Blk.usesOfTarget (b : Blk) (target : BlockId) : List User :=
  (match b.term with
   | some t =>
       List.replicate (t.blockOperands.count target) (User.termUser b.bid t)
   | none => []) ++
  List.replicate (b.phiBlockRefs.count target) (User.phiUser b.bid)

/-- A module-level snapshot of the program graph: every block in existence
(attached or detached), plus the `blockaddress` constants taking the address
of a block (non-instruction users). -/
structure LLModule where
  blks : List Blk
  blockAddrUses : List BlockId
deriving DecidableEq, Repr

/-- The use-list of `target` as a value (`LLVMGetFirstUse` /
`get_next_use`): every operand occurrence referencing `target`. -/
def LLModule.usesOf (m : LLModule) (target : BlockId) : List User :=
  m.blks.flatMap (fun b => b.usesOfTarget target) ++
    List.replicate (m.blockAddrUses.count target) User.nonInst

/-- `BasicBlock::get_predecessors` (`inkwell .../basic_block.rs`, lines
367-384): walk the use-list; for every user that is an instruction push the
user's parent block; other users are skipped.  (In this model every
instruction lives in a block, so `get_parent` of a user is always present.) -/
def LLModule.get_predecessors (m : LLModule) (target : BlockId) :
    List BlockId :=
  (m.usesOf target).filterMap (fun u =>
    match u with
    | User.termUser ownerBid _ => some ownerBid
    | User.phiUser ownerBid => some ownerBid
    | User.nonInst => none)

/-- The body of the use-loop of `BasicBlock::get_conditioned_predecessors`
(`basic_block.rs`, lines 407-428) for a single use: a terminator user
contributes, for each of its conditioned successor edges targeting the
block, one entry re-homed to the user's parent block
(`inst.try_into_terminator_inst` fails on non-terminator instruction users
such as phi nodes, and non-instruction users are skipped). -/
def condPredOfUse (target : BlockId) : User → List PredecessorBlock
  | User.termUser ownerBid t =>
      (t.get_conditioned_successors.filter
        (fun sblk => sblk.block == target)).map
        (fun sblk => PredecessorBlock.new sblk.condition ownerBid)
  | User.phiUser _ => []
  | User.nonInst => []

/-- `BasicBlock::get_conditioned_predecessors` (`basic_block.rs`, lines
401-431): walk the use-list of the block and collect the contributions of
every use. -/
def LLModule.get_conditioned_predecessors (m : LLModule) (target : BlockId) :
    List PredecessorBlock :=
  (m.usesOf target).flatMap (condPredOfUse target)

/-- `BasicBlock::get_successors` (`basic_block.rs`, lines 389-397): take the
block's terminator, convert it to a `TerminatorInst` (which always succeeds
for a terminator), and return its raw successors; a block without a
terminator yields the empty vector. -/
def Blk.get_successors (b : Blk) : List BlockId :=
  match b.term with
  | some t => t.get_successors
  | none => []

/-- `BasicBlock::get_conditioned_successors` (`basic_block.rs`, lines
435-443): same as `get_successors` but through the conditioned deriver. -/
def Blk.get_conditioned_successors (b : Blk) : List SuccessorBlock :=
  match b.term with
  | some t => t.get_conditioned_successors
  | none => []

/-! ## Helper lemmas -/

/-- Collecting `l.get? i` over the index range of `l` reproduces `l` (mapped
through `h`); this is the generic successor-collection loop shape. -/
theorem filterMap_range_get (l : List α) (h : α → β) :
    (List.range l.length).filterMap (fun i => (l.get? i).map h) = l.map h := by
  induction l with
  | nil => rfl
  | cons a l ih =>
      rw [List.length_cons, List.range_succ_eq_map, List.filterMap_cons,
        List.filterMap_map]
      simp only [List.get?_cons_zero, Option.map_some', Function.comp_def,
        List.get?_cons_succ, List.map_cons]
      rw [ih]

/-- The generic successor loop returns exactly the raw successor operands. -/
theorem TermInst.get_successors_eq_raw (t : TermInst) :
    t.get_successors = t.rawSuccessors := by
  unfold TermInst.get_successors TermInst.get_num_successors
    TermInst.get_successor
  have hfun : (fun i => t.rawSuccessors.get? i)
      = fun i => (t.rawSuccessors.get? i).map id := by
    funext i
    cases t.rawSuccessors.get? i <;> rfl
  rw [hfun, filterMap_range_get, List.map_id]

/-- Normal form of the switch case-collection loop. -/
theorem SwitchInst.conditioned_successors_normal (s : SwitchInst) :
    s.get_conditioned_successors
      = SuccessorBlock.new PathCondition.None s.get_default_successor ::
          s.cases.map (fun vc =>
            SuccessorBlock.new
              (PathCondition.Value s.get_condition vc.fst) vc.snd) := by
  unfold SwitchInst.get_conditioned_successors
  have hfun : (fun i =>
      match s.get_case i, s.get_successor i with
      | some case, some successor =>
          some (SuccessorBlock.new
            (PathCondition.Value s.get_condition case) successor)
      | _, _ => none)
      = fun i => (s.cases.get? i).map (fun vc =>
          SuccessorBlock.new
            (PathCondition.Value s.get_condition vc.fst) vc.snd) := by
    funext i
    unfold SwitchInst.get_case SwitchInst.get_successor SwitchInst.get_num_cases
      LLVMGetSwitchCase
    cases hv : s.cases.get? i with
    | none =>
        have hlen : s.cases.length ≤ i := List.get?_eq_none.mp hv
        rcases Nat.lt_or_ge s.cases.length i with hlt | hge
        · simp [hv, hlt]
        · have : s.cases.length = i := Nat.le_antisymm hlen hge
          simp [hv, this]
    | some vc =>
        obtain ⟨hlt, -⟩ := List.get?_eq_some.mp hv
        simp [hv, if_neg (Nat.not_lt.mpr (Nat.le_of_lt hlt))]
  rw [hfun]
  show _ :: (List.range s.cases.length).filterMap _ = _
  rw [filterMap_range_get]

/-- Dispatch normal form: conditioned successors of an unconditional branch. -/
theorem condSuccs_brUncond (target : BlockId) :
    (TermInst.brUncond target).get_conditioned_successors
      = [SuccessorBlock.new PathCondition.None target] := rfl

/-- Dispatch normal form: conditioned successors of a conditional branch. -/
theorem condSuccs_brCond (c : ValueId) (s0 s1 : BlockId) :
    (TermInst.brCond c s0 s1).get_conditioned_successors
      = [SuccessorBlock.new (PathCondition.Boolean c true) s0,
         SuccessorBlock.new (PathCondition.Boolean c false) s1] := rfl

/-- Dispatch normal form: conditioned successors of a switch. -/
theorem condSuccs_switch (c : ValueId) (d : BlockId)
    (cs : List (ValueId × BlockId)) :
    (TermInst.switch c d cs).get_conditioned_successors
      = SuccessorBlock.new PathCondition.None d ::
          cs.map (fun vc =>
            SuccessorBlock.new (PathCondition.Value c vc.fst) vc.snd) := by
  show (SwitchInst.mk c d cs).get_conditioned_successors = _
  rw [SwitchInst.conditioned_successors_normal]
  rfl

/-- The indirect-branch view collects exactly its destination list. -/
theorem IndirectBrInst.get_successors_eq_dests (b : IndirectBrInst) :
    b.get_successors = b.dests := by
  unfold IndirectBrInst.get_successors
  have hfun : b.dests.get?
      = fun i => (b.dests.get? i).map id := by
    funext i
    cases b.dests.get? i <;> rfl
  rw [hfun, filterMap_range_get, List.map_id]

/-- Dispatch normal form: conditioned successors of an indirect branch. -/
theorem condSuccs_indirectBr (a : ValueId) (ds : List BlockId) :
    (TermInst.indirectBr a ds).get_conditioned_successors
      = ds.map (fun blk => SuccessorBlock.new PathCondition.None blk) := by
  show (IndirectBrInst.mk a ds).get_conditioned_successors = _
  unfold IndirectBrInst.get_conditioned_successors
  rw [IndirectBrInst.get_successors_eq_dests]

/-! ## Claim theorems -/

/-- C4: for every predicate `p` in the enumeration (all ten integer
comparison predicates and all sixteen floating-point predicates including
always-true and always-false), `negate (negate p) = p`; `negate` is a pure
total function given by the fixed lookup table `negateIntPred` /
`negateFloatPred`. -/
theorem negate_involutive : ∀ p : BinaryPredicate, p.negate.negate = p := by
  intro p
  cases p with
  | IntPred q => cases q <;> rfl
  | FloatPred q => cases q <;> rfl

/-- C5: the negation table pairs every ordered floating-point comparison
with the unordered comparison of the logically opposite shape and vice
versa (never with the ordered opposite): concretely
`negate OGT = ULE` (and not `OLE`), and for integers
`negate SGT = SLE`, with signedness preserved and the comparison shape
flipped to its logical opposite. -/
theorem negate_pairs_ordered_unordered :
    BinaryPredicate.negate (.FloatPred .OGT) = .FloatPred .ULE
    ∧ BinaryPredicate.negate (.FloatPred .OGT) ≠ .FloatPred .OLE
    ∧ BinaryPredicate.negate (.IntPred .SGT) = .IntPred .SLE
    ∧ (∀ p : FloatPredicate, (negateFloatPred p).isUnordered = p.isOrdered)
    ∧ (∀ p : FloatPredicate, (negateFloatPred p).isOrdered = p.isUnordered)
    ∧ (∀ p : FloatPredicate,
        floatShape (negateFloatPred p) = (floatShape p).map cmpOpposite)
    ∧ (∀ p : IntPredicate, (negateIntPred p).isSigned = p.isSigned)
    ∧ (∀ p : IntPredicate, (negateIntPred p).isUnsigned = p.isUnsigned)
    ∧ (∀ p : IntPredicate, intShape (negateIntPred p) = cmpOpposite (intShape p)) := by
  refine ⟨rfl, by decide, rfl, ?_, ?_, ?_, ?_, ?_, ?_⟩ <;> intro p <;> cases p <;> rfl

/-- C9: `get_condition` fails (the modelled panic, `none`) exactly when the
terminator has no condition, and on a conditional branch it returns the
condition operand. -/
theorem get_condition_failure_iff :
    (∀ t : TermInst, (t.get_condition = none ↔ t.has_condition = false))
    ∧ (∀ (c : ValueId) (s0 s1 : BlockId),
        (TermInst.brCond c s0 s1).get_condition = some c) := by
  constructor
  · intro t
    cases t <;> simp [TermInst.get_condition, TermInst.has_condition,
      LLVMGetCondition]
  · intro c s0 s1
    rfl

/-- C10: `SwitchInst::get_case` returns `None` exactly when the index is
strictly greater than `get_num_cases`; in particular the out-of-range index
`get_num_cases` itself (one past the last valid case index) is accepted and
yields `Some`. -/
theorem get_case_boundary :
    ∀ (s : SwitchInst) (index : Nat),
      (s.get_case index = none ↔ s.get_num_cases < index)
      ∧ (s.get_case s.get_num_cases).isSome = true := by
  intro s index
  constructor
  · unfold SwitchInst.get_case
    rcases Nat.lt_or_ge s.get_num_cases index with hlt | hge
    · simp [hlt]
    · simp [Nat.not_lt.mpr hge, Nat.not_lt.mpr hge]
  · simp [SwitchInst.get_case]

/-- C1: for a switch with condition `c`, default `d` and cases
`(v_0, t_0) ... (v_{N-1}, t_{N-1})` in declaration order,
`get_conditioned_successors` returns exactly `N + 1` edges: first the
unconditioned default edge, then for each case `i` in order the edge
`SuccessorBlock (Value c v_i) t_i`, pairing each case value with that
case's own target. -/
theorem switch_conditioned_successors_spec :
    ∀ s : SwitchInst,
      s.get_conditioned_successors
        = SuccessorBlock.new PathCondition.None s.get_default_successor ::
            s.cases.map (fun vc =>
              SuccessorBlock.new
                (PathCondition.Value s.get_condition vc.fst) vc.snd) := by
  intro s
  exact SwitchInst.conditioned_successors_normal s

/-- C6: an unconditional branch produces the single unconditioned edge to
successor 0; a conditional branch on `c` produces exactly the true edge to
successor 0 followed by the false edge to successor 1. -/
theorem branch_conditioned_successors_spec :
    ∀ (c : ValueId) (s0 s1 target : BlockId),
      (TermInst.brUncond target).get_conditioned_successors
        = [SuccessorBlock.new PathCondition.None target]
      ∧ (TermInst.brCond c s0 s1).get_conditioned_successors
        = [SuccessorBlock.new (PathCondition.Boolean c true) s0,
           SuccessorBlock.new (PathCondition.Boolean c false) s1] := by
  intro c s0 s1 target
  exact ⟨rfl, rfl⟩

/-- C8: a block terminator of any kind other than branch, switch or
indirect branch contributes no conditioned edges: the dispatch returns the
empty vector (not an error), even when the terminator has raw successors. -/
theorem opaque_kind_zero_edges :
    ∀ (b : Blk) (t : TermInst), b.term = some t →
      t.is_a_branch_inst = false →
      t.is_a_switch_inst = false →
      t.is_a_indirectbr_inst = false →
      b.get_conditioned_successors = [] := by
  intro b t hterm h1 h2 h3
  unfold Blk.get_conditioned_successors
  rw [hterm]
  cases t <;> first
    | rfl
    | simp_all [TermInst.is_a_branch_inst, TermInst.is_a_switch_inst,
        TermInst.is_a_indirectbr_inst]

/-- Witness for C8: a block ending in an `invoke` (which has two raw
successors) still yields no conditioned edges. -/
theorem opaque_kind_zero_edges_witness :
    (Blk.mk 0 (some 0) (some (TermInst.invoke 1 2)) []).get_conditioned_successors = []
    ∧ (TermInst.invoke 1 2).get_successors ≠ [] :=
  ⟨opaque_kind_zero_edges (Blk.mk 0 (some 0) (some (TermInst.invoke 1 2)) [])
      (TermInst.invoke 1 2) rfl rfl rfl rfl,
    by decide⟩

/-- C7: for a block whose terminator is a branch, a switch or an indirect
branch, the conditioned successor list and the raw successor list have the
same length. -/
theorem edge_count_correspondence :
    ∀ (b : Blk) (t : TermInst), b.term = some t →
      (t.is_a_branch_inst || t.is_a_switch_inst || t.is_a_indirectbr_inst) = true →
      b.get_conditioned_successors.length = b.get_successors.length := by
  intro b t hterm hkind
  have hc : b.get_conditioned_successors = t.get_conditioned_successors := by
    unfold Blk.get_conditioned_successors
    rw [hterm]
  have hs : b.get_successors = t.get_successors := by
    unfold Blk.get_successors
    rw [hterm]
  rw [hc, hs, TermInst.get_successors_eq_raw]
  cases t with
  | brUncond target => rfl
  | brCond c s0 s1 => rfl
  | switch c d cs =>
      rw [condSuccs_switch]
      simp [TermInst.rawSuccessors]
  | indirectBr a ds =>
      rw [condSuccs_indirectBr]
      simp [TermInst.rawSuccessors]
  | ret => simp_all [TermInst.is_a_branch_inst, TermInst.is_a_switch_inst,
      TermInst.is_a_indirectbr_inst]
  | unreachable => simp_all [TermInst.is_a_branch_inst,
      TermInst.is_a_switch_inst, TermInst.is_a_indirectbr_inst]
  | invoke n u => simp_all [TermInst.is_a_branch_inst,
      TermInst.is_a_switch_inst, TermInst.is_a_indirectbr_inst]
  | callbr d inds => simp_all [TermInst.is_a_branch_inst,
      TermInst.is_a_switch_inst, TermInst.is_a_indirectbr_inst]

/-- Witness for C7: a two-case switch block has three conditioned edges and
three raw successors. -/
theorem edge_count_correspondence_witness :
    (Blk.mk 0 (some 0) (some (TermInst.switch 5 1 [(7, 2), (8, 3)])) []).get_conditioned_successors.length
      = (Blk.mk 0 (some 0) (some (TermInst.switch 5 1 [(7, 2), (8, 3)])) []).get_successors.length :=
  edge_count_correspondence
    (Blk.mk 0 (some 0) (some (TermInst.switch 5 1 [(7, 2), (8, 3)])) [])
    (TermInst.switch 5 1 [(7, 2), (8, 3)]) rfl rfl

/-- Counterexample for C2: a block detached from its function (parent
`none`) that still holds an unconditional branch terminator reports that
branch's target as a successor, and a detached block still referenced by an
attached block's branch reports that block as a predecessor — neither query
result is empty.  (Removal from the function detaches the block but leaves
its instructions and its use-list in place.) -/
theorem detached_block_counterexample :
    (Blk.mk 0 none (some (TermInst.brUncond 1)) []).parent = none
    ∧ (Blk.mk 0 none (some (TermInst.brUncond 1)) []).get_successors ≠ []
    ∧ (Blk.mk 7 none none []).parent = none
    ∧ (LLModule.mk
        [Blk.mk 3 (some 0) (some (TermInst.brUncond 7)) [],
         Blk.mk 7 none none []] []).get_predecessors 7 ≠ [] := by
  refine ⟨rfl, by decide, rfl, by decide⟩

/-- C2 as amended: successor and predecessor queries on a removed block are
total (they never fail), and they return the empty vector when the detached
block has no terminator and, respectively, when no instruction uses it;
detachment alone does not empty them. -/
theorem detached_block_empty_queries (m : LLModule) (b : Blk)
    (hdetached : b.parent = none) (hterm : b.term = none)
    (huses : ∀ u ∈ m.usesOf b.bid, u.is_instruction_value = false) :
    b.get_successors = [] ∧ m.get_predecessors b.bid = [] := by
  constructor
  · unfold Blk.get_successors
    rw [hterm]
  · unfold LLModule.get_predecessors
    rw [List.filterMap_eq_nil_iff]
    intro u hu
    have hnot := huses u hu
    cases u <;> simp_all [User.is_instruction_value]

/-- Witness for C2 as amended: an empty detached block whose only use is a
`blockaddress` constant yields empty successor and predecessor lists. -/
theorem detached_block_empty_queries_witness :
    (Blk.mk 0 none none []).get_successors = []
    ∧ (LLModule.mk [Blk.mk 0 none none []] [0]).get_predecessors 0 = [] :=
  detached_block_empty_queries (LLModule.mk [Blk.mk 0 none none []] [0])
    (Blk.mk 0 none none []) rfl rfl (by decide)

/-- Counting over a `flatMap` of a replicated element. -/
theorem count_flatMap_replicate [DecidableEq β] (n : Nat) (a : α)
    (f : α → List β) (b : β) :
    ((List.replicate n a).flatMap f).count b = n * (f a).count b := by
  induction n with
  | zero => simp
  | succ n ih =>
      rw [List.replicate_succ, List.flatMap_cons, List.count_append, ih,
        Nat.succ_mul, Nat.add_comm]

/-- Counting a re-homed predecessor entry among the edges filtered to a
target: nonzero only when the entry's block is the owner, in which case it
counts the edges `(c, target)`. -/
theorem count_map_rehome (l : List SuccessorBlock) (ownerBid target : BlockId)
    (c : PathCondition) (abid : BlockId) :
    ((l.filter (fun sblk => sblk.block == target)).map
        (fun sblk => PredecessorBlock.new sblk.condition ownerBid)).count
      (PredecessorBlock.new c abid)
    = if ownerBid = abid then l.count (SuccessorBlock.new c target) else 0 := by
  induction l with
  | nil => simp [List.count_nil]
  | cons s l ih =>
      obtain ⟨sc, sb⟩ := s
      by_cases hb : sb = target
      · rw [List.filter_cons_of_pos (by simp [hb]), List.map_cons,
          List.count_cons, List.count_cons, ih]
        by_cases ho : ownerBid = abid
        · by_cases hc : sc = c
          · simp [PredecessorBlock.new, SuccessorBlock.new, ho, hc, hb]
          · simp [PredecessorBlock.new, SuccessorBlock.new, ho, hc, hb]
        · simp [PredecessorBlock.new, SuccessorBlock.new, ho]
      · rw [List.filter_cons_of_neg (by simp [hb]), ih, List.count_cons]
        by_cases ho : ownerBid = abid
        · simp [SuccessorBlock.new, ho, hb]
        · simp [ho]

/-- Contribution of a single block's uses to a conditioned-predecessor
count: the number of operand occurrences of the target in the block's
terminator times the count contributed by one scan of that terminator. -/
theorem count_condPred_blockUses (b : Blk) (target : BlockId)
    (p : PredecessorBlock) :
    ((b.usesOfTarget target).flatMap (condPredOfUse target)).count p
      = match b.term with
        | some t => (t.blockOperands.count target)
            * ((condPredOfUse target (User.termUser b.bid t)).count p)
        | none => 0 := by
  unfold Blk.usesOfTarget
  cases hterm : b.term with
  | none =>
      simp [List.flatMap_append, List.count_append, count_flatMap_replicate,
        condPredOfUse]
  | some t =>
      simp [List.flatMap_append, List.count_append, count_flatMap_replicate,
        condPredOfUse]

/-- The conditioned-predecessor count decomposes as the sum of per-block
contributions. -/
theorem count_conditioned_predecessors (m : LLModule) (target : BlockId)
    (p : PredecessorBlock) :
    (m.get_conditioned_predecessors target).count p
      = (m.blks.map (fun b =>
          ((b.usesOfTarget target).flatMap (condPredOfUse target)).count p)).sum := by
  unfold LLModule.get_conditioned_predecessors LLModule.usesOf
  rw [List.flatMap_append, List.count_append, count_flatMap_replicate,
    List.flatMap_assoc, List.count_flatMap]
  simp [condPredOfUse, Function.comp_def]

/-- Summing a function over a list containing a designated element exactly
once, with every other element contributing zero. -/
theorem sum_map_single (l : List α) [DecidableEq α] (g : α → Nat) (a : α)
    (hcount : l.count a = 1) (hzero : ∀ x ∈ l, x ≠ a → g x = 0) :
    (l.map g).sum = g a := by
  induction l with
  | nil => simp at hcount
  | cons x l ih =>
      by_cases hx : x = a
      · subst hx
        rw [List.count_cons_self] at hcount
        have hzl : l.count x = 0 := by omega
        have : ∀ y ∈ l, g y = 0 := by
          intro y hy
          by_cases hyx : y = x
          · subst hyx
            rw [List.count_eq_zero] at hzl
            exact absurd hy hzl
          · exact hzero y (List.mem_cons_of_mem _ hy) hyx
        rw [List.map_cons, List.sum_cons, List.sum_eq_zero]
        · omega
        · intro z hz
          obtain ⟨y, hy, rfl⟩ := List.mem_map.mp hz
          exact this y hy
      · rw [List.count_cons_of_ne (Ne.symm hx)] at hcount
        rw [List.map_cons, List.sum_cons,
          ih hcount (fun y hy => hzero y (List.mem_cons_of_mem _ hy)),
          hzero x (List.mem_cons_self _ _) hx, Nat.zero_add]

/-- Specialisation of `count_condPred_blockUses` to a block with a
terminator. -/
theorem count_condPred_blockUses_some (b : Blk) (t : TermInst)
    (hterm : b.term = some t) (target : BlockId) (p : PredecessorBlock) :
    ((b.usesOfTarget target).flatMap (condPredOfUse target)).count p
      = (t.blockOperands.count target)
        * ((condPredOfUse target (User.termUser b.bid t)).count p) := by
  rw [count_condPred_blockUses, hterm]

/-- Specialisation of `count_condPred_blockUses` to a block without a
terminator. -/
theorem count_condPred_blockUses_none (b : Blk)
    (hterm : b.term = none) (target : BlockId) (p : PredecessorBlock) :
    ((b.usesOfTarget target).flatMap (condPredOfUse target)).count p = 0 := by
  rw [count_condPred_blockUses, hterm]

/-- Every conditioned successor edge's target is an operand of the
terminator. -/
theorem condSuccs_block_mem_operands (t : TermInst) (c : PathCondition)
    (T : BlockId)
    (h : SuccessorBlock.new c T ∈ t.get_conditioned_successors) :
    T ∈ t.blockOperands := by
  cases t with
  | brUncond target =>
      rw [condSuccs_brUncond] at h
      simp only [SuccessorBlock.new, List.mem_singleton,
        SuccessorBlock.mk.injEq] at h
      simp [TermInst.blockOperands, h.2]
  | brCond cc s0 s1 =>
      rw [condSuccs_brCond] at h
      simp only [SuccessorBlock.new, List.mem_cons, List.mem_singleton,
        SuccessorBlock.mk.injEq, List.not_mem_nil, or_false] at h
      rcases h with ⟨-, rfl⟩ | ⟨-, rfl⟩ <;> simp [TermInst.blockOperands]
  | switch cc d cs =>
      rw [condSuccs_switch] at h
      rcases List.mem_cons.mp h with heq | hmem
      · simp only [SuccessorBlock.new, SuccessorBlock.mk.injEq] at heq
        simp [TermInst.blockOperands, heq.2]
      · obtain ⟨vc, hvc, heq⟩ := List.mem_map.mp hmem
        simp only [SuccessorBlock.new, SuccessorBlock.mk.injEq] at heq
        simp only [TermInst.blockOperands, List.mem_cons]
        right
        exact List.mem_map.mpr ⟨vc, hvc, heq.2⟩
  | indirectBr a ds =>
      rw [condSuccs_indirectBr] at h
      obtain ⟨blk, hblk, heq⟩ := List.mem_map.mp h
      simp only [SuccessorBlock.new, SuccessorBlock.mk.injEq] at heq
      simpa [TermInst.blockOperands, heq.2] using hblk
  | ret => exact absurd h (List.not_mem_nil _)
  | unreachable => exact absurd h (List.not_mem_nil _)
  | invoke n u => exact absurd h (List.not_mem_nil _)
  | callbr d inds => exact absurd h (List.not_mem_nil _)

/-- C3 as amended: for an attached block `A` with terminator `t` and any
target block `T` (block identities unique in the module), each condition
`c` appears among the conditioned-predecessor entries `(c, A)` of `T` with
multiplicity `k * s`, where `k` is the number of operand occurrences of `T`
in `t` and `s` is the multiplicity of the edge `(c, T)` among the
conditioned successors of `A`; consequently every conditioned successor
edge still appears as a conditioned-predecessor entry, but a terminator
referencing `T` through several operands (two switch cases targeting the
same block) duplicates every matching edge once per use, so the claimed
one-to-one multiset correspondence holds only when `k = 1`. -/
theorem conditioned_predecessor_multiplicity (m : LLModule) (A : Blk)
    (t : TermInst) (T : BlockId) (c : PathCondition)
    (hattached : A.parent.isSome = true)
    (hterm : A.term = some t)
    (hcount : m.blks.count A = 1)
    (huniq : ∀ B ∈ m.blks, B.bid = A.bid → B = A) :
    (m.get_conditioned_predecessors T).count (PredecessorBlock.new c A.bid)
      = (t.blockOperands.count T)
        * (A.get_conditioned_successors.count (SuccessorBlock.new c T))
    ∧ (SuccessorBlock.new c T ∈ A.get_conditioned_successors →
        PredecessorBlock.new c A.bid ∈ m.get_conditioned_predecessors T) := by
  have hsucc : A.get_conditioned_successors = t.get_conditioned_successors := by
    unfold Blk.get_conditioned_successors
    rw [hterm]
  have hmain : (m.get_conditioned_predecessors T).count
        (PredecessorBlock.new c A.bid)
      = (t.blockOperands.count T)
        * (t.get_conditioned_successors.count (SuccessorBlock.new c T)) := by
    rw [count_conditioned_predecessors]
    rw [sum_map_single _ _ A hcount ?hz]
    case hz =>
      intro B hB hBA
      cases hBterm : B.term with
      | none => exact count_condPred_blockUses_none B hBterm T _
      | some tB =>
          have hbid : B.bid ≠ A.bid := fun hb => hBA (huniq B hB hb)
          rw [count_condPred_blockUses_some B tB hBterm T _]
          unfold condPredOfUse
          rw [count_map_rehome, if_neg hbid, Nat.mul_zero]
    rw [count_condPred_blockUses_some A t hterm T _]
    unfold condPredOfUse
    rw [count_map_rehome, if_pos rfl]
  constructor
  · rw [hsucc]
    exact hmain
  · intro hmem
    rw [hsucc] at hmem
    have hcpos : 0 < t.get_conditioned_successors.count
        (SuccessorBlock.new c T) := List.count_pos_iff.mpr hmem
    have hkpos : 0 < t.blockOperands.count T :=
      List.count_pos_iff.mpr (condSuccs_block_mem_operands t c T hmem)
    have hpos : 0 < (m.get_conditioned_predecessors T).count
        (PredecessorBlock.new c A.bid) := by
      rw [hmain]
      exact Nat.mul_pos hkpos hcpos
    exact List.count_pos_iff.mp hpos

/-- Witness for C3 as amended: block 0 switches on value 9 with the two
cases `10 -> 1` and `11 -> 1` and default `2`; the entry
`(Value 9 10, block 0)` appears among the conditioned predecessors of
block 1 with multiplicity 2 * 1. -/
theorem conditioned_predecessor_multiplicity_witness :
    ((LLModule.mk
        [Blk.mk 0 (some 0) (some (TermInst.switch 9 2 [(10, 1), (11, 1)])) [],
         Blk.mk 1 (some 0) none [],
         Blk.mk 2 (some 0) none []] []).get_conditioned_predecessors 1).count
        (PredecessorBlock.new (PathCondition.Value 9 10) 0)
      = ((TermInst.switch 9 2 [(10, 1), (11, 1)]).blockOperands.count 1)
        * ((Blk.mk 0 (some 0)
              (some (TermInst.switch 9 2 [(10, 1), (11, 1)])) []).get_conditioned_successors.count
            (SuccessorBlock.new (PathCondition.Value 9 10) 1))
    ∧ (SuccessorBlock.new (PathCondition.Value 9 10) 1
          ∈ (Blk.mk 0 (some 0)
              (some (TermInst.switch 9 2 [(10, 1), (11, 1)])) []).get_conditioned_successors →
        PredecessorBlock.new (PathCondition.Value 9 10) 0
          ∈ (LLModule.mk
              [Blk.mk 0 (some 0) (some (TermInst.switch 9 2 [(10, 1), (11, 1)])) [],
               Blk.mk 1 (some 0) none [],
               Blk.mk 2 (some 0) none []] []).get_conditioned_predecessors 1) :=
  conditioned_predecessor_multiplicity
    (LLModule.mk
      [Blk.mk 0 (some 0) (some (TermInst.switch 9 2 [(10, 1), (11, 1)])) [],
       Blk.mk 1 (some 0) none [],
       Blk.mk 2 (some 0) none []] [])
    (Blk.mk 0 (some 0) (some (TermInst.switch 9 2 [(10, 1), (11, 1)])) [])
    (TermInst.switch 9 2 [(10, 1), (11, 1)]) 1 (PathCondition.Value 9 10)
    rfl rfl (by decide) (by decide)

/-- Counterexample for C3: block 0 (attached) switches on value 9 with the
two cases `10 -> 1` and `11 -> 1` and default `2`.  The edge condition
`Value 9 10` occurs once among the conditioned successors of block 0
targeting block 1, but the entry `(Value 9 10, block 0)` occurs twice among
the conditioned predecessors of block 1 — the multisets differ, and the two
cases produce four predecessor entries rather than two, because each of the
two operand occurrences of block 1 in the switch is a separate use and each
use rescans all matching edges. -/
theorem conditioned_inverse_counterexample :
    (Blk.mk 0 (some 0) (some (TermInst.switch 9 2 [(10, 1), (11, 1)])) []).parent
      = some 0
    ∧ ((Blk.mk 0 (some 0)
          (some (TermInst.switch 9 2 [(10, 1), (11, 1)])) []).get_conditioned_successors.count
        (SuccessorBlock.new (PathCondition.Value 9 10) 1)) = 1
    ∧ (((LLModule.mk
          [Blk.mk 0 (some 0) (some (TermInst.switch 9 2 [(10, 1), (11, 1)])) [],
           Blk.mk 1 (some 0) none [],
           Blk.mk 2 (some 0) none []] []).get_conditioned_predecessors 1).count
        (PredecessorBlock.new (PathCondition.Value 9 10) 0)) = 2
    ∧ ((LLModule.mk
          [Blk.mk 0 (some 0) (some (TermInst.switch 9 2 [(10, 1), (11, 1)])) [],
           Blk.mk 1 (some 0) none [],
           Blk.mk 2 (some 0) none []] []).get_conditioned_predecessors 1).length
        = 4 := by
  refine ⟨rfl, by decide, by decide, by decide⟩
